import Mathlib

/-!
Verification of the `json2db` file-backed document store (`fileserver.js`).

The development shallowly embeds the `FileServer` class: the filesystem is a
finite tree of entries, paths are lists of segments of the normalized relative
path under the store root (`path.join(this.dirpath, fpath)` restricted to
paths that stay under the root; the string-level join used for the
path-traversal analysis is modelled separately as `joinPath`), promises are
modelled by an explicit `Outcome` (fulfilled / rejected), and the
`EventEmitter` notifications are collected in an event log inside the state.
JSON values are modelled by `Json` (numbers as integers; IEEE floats are out
of scope), `JSON.stringify(v, undefined, 2)` by `stringify`, and `JSON.parse`
by `parseJson`.  `writeFileSync`'s coercion of non-string data (the Node
versions this package targets coerce via `String(data)`) is modelled by
`jsToString`.
-/

namespace Json2Db

/-- JSON values as stored in documents (JS numbers restricted to integers). -/
inductive Json where
  | null : Json
  | bool (b : Bool) : Json
  | num (n : Int) : Json
  | str (s : String) : Json
  | arr (xs : List Json) : Json
  | obj (fields : List (String × Json)) : Json
deriving Repr

/-- Decimal digits, most significant first (`fuel` bounds the division
chain; `natChars` supplies enough for any `n`). -/
def natCharsAux : Nat → Nat → List Char
  | 0, _ => []
  | f + 1, n =>
    if n < 10 then [Char.ofNat (48 + n)]
    else natCharsAux f (n / 10) ++ [Char.ofNat (48 + n % 10)]

/-- Decimal digits of a natural number, most significant first. -/
def natChars (n : Nat) : List Char := natCharsAux (n + 1) n

/-- Decimal representation of an integer, as printed by `JSON.stringify`. -/
def intChars (n : Int) : List Char :=
  if n < 0 then '-' :: natChars n.natAbs else natChars n.toNat

/-- Lower-case hexadecimal digit. -/
def hexDig (n : Nat) : Char :=
  if n < 10 then Char.ofNat (48 + n) else Char.ofNat (87 + n)

/-- How `JSON.stringify` escapes one character inside a string literal. -/
def escChar (c : Char) : List Char :=
  if c = '"' then ['\\', '"']
  else if c = '\\' then ['\\', '\\']
  else if c = '\x08' then ['\\', 'b']
  else if c = '\t' then ['\\', 't']
  else if c = '\n' then ['\\', 'n']
  else if c = '\x0c' then ['\\', 'f']
  else if c = '\r' then ['\\', 'r']
  else if c.toNat < 32 then
    ['\\', 'u', '0', '0', hexDig (c.toNat / 16), hexDig (c.toNat % 16)]
  else [c]

/-- Escape a whole string body. -/
def escList : List Char → List Char
  | [] => []
  | c :: cs => escChar c ++ escList cs

/-- Two spaces of indentation per nesting level (`JSON.stringify(_, _, 2)`). -/
def pad (n : Nat) : List Char := List.replicate (2 * n) ' '

mutual

/-- Characters of `JSON.stringify(v, undefined, 2)` at nesting depth `d`. -/
def pJson : Nat → Json → List Char
  | _, .null => ['n', 'u', 'l', 'l']
  | _, .bool true => ['t', 'r', 'u', 'e']
  | _, .bool false => ['f', 'a', 'l', 's', 'e']
  | _, .num n => intChars n
  | _, .str s => '"' :: (escList s.data ++ ['"'])
  | _, .arr [] => ['[', ']']
  | d, .arr (x :: xs) =>
    '[' :: '\n' :: (pad (d + 1) ++ pJson (d + 1) x ++ pArrTail d xs)
  | _, .obj [] => ['\x7b', '\x7d']
  | d, .obj (kv :: fs) =>
    '\x7b' :: '\n' :: (pad (d + 1) ++ '"' :: (escList kv.1.data ++
      '"' :: ':' :: ' ' :: pJson (d + 1) kv.2 ++ pObjTail d fs))

/-- Remaining array items: separator, item, …, newline, closing bracket. -/
def pArrTail : Nat → List Json → List Char
  | d, [] => '\n' :: (pad d ++ [']'])
  | d, y :: ys => ',' :: '\n' :: (pad (d + 1) ++ pJson (d + 1) y ++ pArrTail d ys)

/-- Remaining object fields: separator, field, …, newline, closing brace. -/
def pObjTail : Nat → List (String × Json) → List Char
  | d, [] => '\n' :: (pad d ++ ['\x7d'])
  | d, kv :: fs =>
    ',' :: '\n' :: (pad (d + 1) ++ '"' :: (escList kv.1.data ++
      '"' :: ':' :: ' ' :: pJson (d + 1) kv.2 ++ pObjTail d fs))

end

/-- The serialized document text: `JSON.stringify(data, undefined, 2)`. -/
def stringify (v : Json) : String := String.mk (pJson 0 v)

mutual

/-- JS `String(v)` coercion (applied by `writeFileSync` to non-string data in
the Node versions this package targets). -/
def jsToString : Json → String
  | .null => "null"
  | .bool true => "true"
  | .bool false => "false"
  | .num n => String.mk (intChars n)
  | .str s => s
  | .arr xs => jsArrStr xs
  | .obj _ => "[object Object]"

/-- JS `Array.prototype.toString`: elements joined by commas, null as empty. -/
def jsArrStr : List Json → String
  | [] => ""
  | x :: xs =>
    (match x with
      | .null => ""
      | _ => jsToString x) ++
    (match xs with
      | [] => ""
      | _ :: _ => "," ++ jsArrStr xs)

end

/-- JSON whitespace. -/
def isWsChar (c : Char) : Bool :=
  c = ' ' || c = '\n' || c = '\t' || c = '\r'

/-- Drop leading JSON whitespace. -/
def skipWs : List Char → List Char
  | [] => []
  | c :: r => if isWsChar c then skipWs r else c :: r

/-- Decimal digit test (by code point, as in the JSON grammar). -/
def isDig (c : Char) : Bool := 48 ≤ c.toNat && c.toNat ≤ 57

/-- The input does not continue with a digit (so a number parse stops). -/
def headNonDig : List Char → Bool
  | [] => true
  | c :: _ => !isDig c

/-- Accumulate a run of decimal digits. -/
def digLoop : Nat → List Char → Nat × List Char
  | acc, [] => (acc, [])
  | acc, c :: r =>
    if isDig c then digLoop (10 * acc + (c.toNat - 48)) r else (acc, c :: r)

/-- Value of one hexadecimal digit. -/
def hexVal (c : Char) : Option Nat :=
  if 48 ≤ c.toNat ∧ c.toNat ≤ 57 then some (c.toNat - 48)
  else if 97 ≤ c.toNat ∧ c.toNat ≤ 102 then some (c.toNat - 87)
  else if 65 ≤ c.toNat ∧ c.toNat ≤ 70 then some (c.toNat - 55)
  else none

/-- Decode one named escape (`\" \\ \/ \b \f \n \r \t`). -/
def escDecode (c : Char) : Option Char :=
  if c = '"' then some '"'
  else if c = '\\' then some '\\'
  else if c = '/' then some '/'
  else if c = 'b' then some '\x08'
  else if c = 'f' then some '\x0c'
  else if c = 'n' then some '\n'
  else if c = 'r' then some '\r'
  else if c = 't' then some '\t'
  else none

/-- Parse the body of a JSON string literal (after the opening quote),
returning the decoded characters and the input after the closing quote. -/
def parseStrBody : List Char → Option (List Char × List Char)
  | [] => none
  | c :: r =>
    if c = '"' then some ([], r)
    else if c = '\\' then
      match r with
      | [] => none
      | e :: r2 =>
        if e = 'u' then
          match r2 with
          | h1 :: h2 :: h3 :: h4 :: r3 =>
            match hexVal h1, hexVal h2, hexVal h3, hexVal h4 with
            | some a, some b, some x, some y =>
              (parseStrBody r3).map
                (fun p => (Char.ofNat (a * 4096 + b * 256 + x * 16 + y) :: p.1, p.2))
            | _, _, _, _ => none
          | _ => none
        else
          match escDecode e with
          | some dch => (parseStrBody r2).map (fun p => (dch :: p.1, p.2))
          | none => none
    else if c.toNat < 32 then none
    else (parseStrBody r).map (fun p => (c :: p.1, p.2))

/-- Parse the tail of the literal `null`. -/
def parseNull : List Char → Option (Json × List Char)
  | 'u' :: 'l' :: 'l' :: r2 => some (.null, r2)
  | _ => none

/-- Parse the tail of the literal `true`. -/
def parseTrue : List Char → Option (Json × List Char)
  | 'r' :: 'u' :: 'e' :: r2 => some (.bool true, r2)
  | _ => none

/-- Parse the tail of the literal `false`. -/
def parseFalse : List Char → Option (Json × List Char)
  | 'a' :: 'l' :: 's' :: 'e' :: r2 => some (.bool false, r2)
  | _ => none

/-- Parse the digits after a leading minus sign. -/
def parseNeg : List Char → Option (Json × List Char)
  | [] => none
  | d :: r2 =>
    if isDig d then
      let p := digLoop (d.toNat - 48) r2
      some (.num (-(p.1 : Int)), p.2)
    else none

/-- Parse an array body after the opening bracket, given the item parser. -/
def parseArrB (items : List Char → Option (List Json × List Char))
    (r : List Char) : Option (Json × List Char) :=
  let r1 := skipWs r
  if r1.head? = some ']' then some (.arr [], r1.tail)
  else (items r1).map (fun p => (.arr p.1, p.2))

/-- Parse an object body after the opening brace, given the field parser. -/
def parseObjB (kvs : List Char → Option (List (String × Json) × List Char))
    (r : List Char) : Option (Json × List Char) :=
  let r1 := skipWs r
  if r1.head? = some ('\x7d') then some (.obj [], r1.tail)
  else (kvs r1).map (fun p => (.obj p.1, p.2))

mutual

/-- Fueled recursive-descent JSON value parser (model of `JSON.parse`,
numbers restricted to integers).  Assumes the first character of the input is
the first character of the value. -/
def parseV : Nat → List Char → Option (Json × List Char)
  | 0, _ => none
  | _ + 1, [] => none
  | f + 1, c :: r =>
    if c = 'n' then parseNull r
    else if c = 't' then parseTrue r
    else if c = 'f' then parseFalse r
    else if c = '"' then
      (parseStrBody r).map (fun p => (.str (String.mk p.1), p.2))
    else if c = '-' then parseNeg r
    else if isDig c then
      let p := digLoop (c.toNat - 48) r
      some (.num ((p.1 : Int)), p.2)
    else if c = '[' then parseArrB (parseItems f) r
    else if c = '\x7b' then parseObjB (parseKVs f) r
    else none

/-- Parse the elements of a non-empty array, up to the closing bracket. -/
def parseItems : Nat → List Char → Option (List Json × List Char)
  | 0, _ => none
  | f + 1, l =>
    match parseV f l with
    | none => none
    | some (v, r) =>
      match skipWs r with
      | ',' :: r2 => (parseItems f (skipWs r2)).map (fun p => (v :: p.1, p.2))
      | ']' :: r2 => some ([v], r2)
      | _ => none

/-- Parse the fields of a non-empty object, up to the closing brace. -/
def parseKVs : Nat → List Char → Option (List (String × Json) × List Char)
  | 0, _ => none
  | f + 1, '"' :: r =>
    match parseStrBody r with
    | none => none
    | some (k, r1) =>
      match skipWs r1 with
      | ':' :: r2 =>
        match parseV f (skipWs r2) with
        | none => none
        | some (v, r3) =>
          match skipWs r3 with
          | ',' :: r4 =>
            (parseKVs f (skipWs r4)).map
              (fun p => ((String.mk k, v) :: p.1, p.2))
          | '\x7d' :: r4 => some ([(String.mk k, v)], r4)
          | _ => none
      | _ => none
  | _ + 1, _ => none

end

/-- Model of `JSON.parse`: parse a complete document, allowing surrounding
whitespace; `none` models a thrown `SyntaxError`. -/
def parseJson (s : String) : Option Json :=
  match parseV (s.length + 1) (skipWs s.data) with
  | some (v, rest) => if skipWs rest = [] then some v else none
  | none => none

/-! ## The filesystem model

A filesystem is a finite tree of entries under the store root; paths are the
segment lists of normalized relative paths (so `path.join(this.dirpath, p)`
is navigation from the root tree and `path.dirname p` is `List.dropLast`).
Node error codes are modelled by `Err`; each primitive mirrors the error the
corresponding `fs` call raises (special files are modelled by `other`, whose
read/write behaviour no claim depends on). -/

/-- Node `fs` error codes used by the store. -/
inductive Err where
  | ENOENT | EEXIST | EISDIR | ENOTDIR | ENOTEMPTY | EPERM
deriving DecidableEq, Repr

/-- What `Stats.isFile` / `Stats.isDirectory` report. -/
inductive FType where
  | fileT | dirT | otherT
deriving DecidableEq, Repr

/-- A filesystem entry: regular file, directory, or special file. -/
inductive Entry where
  | file (content : String) : Entry
  | dir (children : List (String × Entry)) : Entry
  | other : Entry
deriving Repr

/-- The `FType` of an entry. -/
def ftype : Entry → FType
  | .file _ => .fileT
  | .dir _ => .dirT
  | .other => .otherT

/-- First child with the given name. -/
def getChild (cs : List (String × Entry)) (n : String) : Option Entry :=
  match cs with
  | [] => none
  | kv :: rest => if kv.1 = n then some kv.2 else getChild rest n

/-- Replace the children with the given name. -/
def setChild (cs : List (String × Entry)) (n : String) (e : Entry) :
    List (String × Entry) :=
  cs.map (fun kv => if kv.1 = n then (n, e) else kv)

/-- Remove the children with the given name. -/
def removeChild (cs : List (String × Entry)) (n : String) :
    List (String × Entry) :=
  cs.filter (fun kv => ¬ kv.1 = n)

/-- Navigate to the entry at a path (no error distinction). -/
def lookupE (e : Entry) : List String → Option Entry
  | [] => some e
  | n :: p =>
    match e with
    | .dir cs =>
      match getChild cs n with
      | some c => lookupE c p
      | none => none
    | _ => none

/-- `fs.stat`: `ENOENT` if a component is missing, `ENOTDIR` if a non-final
component is not a directory. -/
def statE (e : Entry) : List String → Except Err FType
  | [] => .ok (ftype e)
  | n :: p =>
    match e with
    | .dir cs =>
      match getChild cs n with
      | some c => statE c p
      | none => .error .ENOENT
    | _ => .error .ENOTDIR

/-- `fs.mkdir` (non-recursive): `EEXIST` if the target exists, `ENOENT` if an
ancestor is missing, `ENOTDIR` if an ancestor is not a directory. -/
def mkdirE (e : Entry) : List String → Except Err Entry
  | [] => .error .EEXIST
  | [n] =>
    match e with
    | .dir cs =>
      match getChild cs n with
      | some _ => .error .EEXIST
      | none => .ok (.dir (cs ++ [(n, .dir [])]))
    | _ => .error .ENOTDIR
  | n :: p :: ps =>
    match e with
    | .dir cs =>
      match getChild cs n with
      | some c => (mkdirE c (p :: ps)).map (fun c2 => .dir (setChild cs n c2))
      | none => .error .ENOENT
    | _ => .error .ENOTDIR

/-- `fs.writeFileSync`: create or overwrite a regular file; `ENOENT` if the
parent is missing, `ENOTDIR` if an ancestor is not a directory, `EISDIR` if a
directory occupies the path (special files modelled as not writable). -/
def writeFileE (e : Entry) (c : String) : List String → Except Err Entry
  | [] =>
    match e with
    | .file _ => .ok (.file c)
    | .dir _ => .error .EISDIR
    | .other => .error .EPERM
  | [n] =>
    match e with
    | .dir cs =>
      match getChild cs n with
      | some ch => (writeFileE ch c []).map (fun c2 => .dir (setChild cs n c2))
      | none => .ok (.dir (cs ++ [(n, .file c)]))
    | _ => .error .ENOTDIR
  | n :: p :: ps =>
    match e with
    | .dir cs =>
      match getChild cs n with
      | some ch =>
        (writeFileE ch c (p :: ps)).map (fun c2 => .dir (setChild cs n c2))
      | none => .error .ENOENT
    | _ => .error .ENOTDIR

/-- `fs.readFile`: the content of a regular file. -/
def readFileE (e : Entry) : List String → Except Err String
  | [] =>
    match e with
    | .file c => .ok c
    | .dir _ => .error .EISDIR
    | .other => .error .EPERM
  | n :: p =>
    match e with
    | .dir cs =>
      match getChild cs n with
      | some ch => readFileE ch p
      | none => .error .ENOENT
    | _ => .error .ENOTDIR

/-- `fs.unlink`: remove a non-directory entry (removing the store root itself
is not modelled). -/
def unlinkE (e : Entry) : List String → Except Err Entry
  | [] => .error .EPERM
  | [n] =>
    match e with
    | .dir cs =>
      match getChild cs n with
      | some (.dir _) => .error .EISDIR
      | some _ => .ok (.dir (removeChild cs n))
      | none => .error .ENOENT
    | _ => .error .ENOTDIR
  | n :: p :: ps =>
    match e with
    | .dir cs =>
      match getChild cs n with
      | some c => (unlinkE c (p :: ps)).map (fun c2 => .dir (setChild cs n c2))
      | none => .error .ENOENT
    | _ => .error .ENOTDIR

/-- `fs.rmdir`: remove an empty directory (removing the store root itself is
not modelled). -/
def rmdirE (e : Entry) : List String → Except Err Entry
  | [] => .error .EPERM
  | [n] =>
    match e with
    | .dir cs =>
      match getChild cs n with
      | some (.dir []) => .ok (.dir (removeChild cs n))
      | some (.dir (_ :: _)) => .error .ENOTEMPTY
      | some _ => .error .ENOTDIR
      | none => .error .ENOENT
    | _ => .error .ENOTDIR
  | n :: p :: ps =>
    match e with
    | .dir cs =>
      match getChild cs n with
      | some c => (rmdirE c (p :: ps)).map (fun c2 => .dir (setChild cs n c2))
      | none => .error .ENOENT
    | _ => .error .ENOTDIR

/-- `fs.readdir`: names of the entries of a directory. -/
def readdirE (e : Entry) : List String → Except Err (List String)
  | [] =>
    match e with
    | .dir cs => .ok (cs.map Prod.fst)
    | _ => .error .ENOTDIR
  | n :: p =>
    match e with
    | .dir cs =>
      match getChild cs n with
      | some ch => readdirE ch p
      | none => .error .ENOENT
    | _ => .error .ENOTDIR

/-! ## The FileServer methods -/

/-- A notification delivered through the `EventEmitter` base class. -/
inductive Event where
  | readEv (p : List String) (v : Json) : Event
  | writeEv (p : List String) (v : Json) : Event
  | deleteEv (p : List String) : Event
deriving Repr

/-- FileServer state: the tree under the store root plus the emitted events
(in emission order). -/
structure St where
  fs : Entry
  events : List Event
deriving Repr

/-- Append one notification to the event log. -/
def emit (st : St) (e : Event) : St := St.mk st.fs (st.events ++ [e])

/-- A settled promise: fulfilled with a value or rejected with an error. -/
inductive Outcome (α : Type) where
  | fulfilled (v : α) : Outcome α
  | rejected (e : Err) : Outcome α
deriving Repr

/-- The dynamically-typed values the `writep` / `mkdirp` / `rmrdir` promises
fulfill with: the sentinel `1`, `undefined` from a successful `fs` call, or
an `Error` object returned (not thrown). -/
inductive RetV where
  | one | unitv | errv (e : Err)
deriving DecidableEq, Repr

/-- Executable list-prefix test (used for suffix and path-prefix checks). -/
def listPref {α : Type} [DecidableEq α] : List α → List α → Bool
  | [], _ => true
  | _ :: _, [] => false
  | a :: as, b :: bs => a = b && listPref as bs

/-- `fpath.endsWith('.json')` (decided on the last segment; `'.json'` has no
separator, so this agrees with the string-level test). -/
def endsJson (p : List String) : Bool :=
  match p.getLast? with
  | some s => listPref ((".json").data.reverse) s.data.reverse
  | none => false

/-- The text `write` hands to `writeFileSync`: JSON serialization for
`.json` paths, `String(data)` coercion otherwise. -/
def serContent (p : List String) (v : Json) : String :=
  if endsJson p then stringify v else jsToString v

/-- `read(fpath)`: read the file, try `JSON.parse`, fall back to the raw
text, emit a `read` event with the returned value, return it.  A failed
`readFile` rejects the promise. -/
def read (st : St) (p : List String) : Outcome Json × St :=
  match readFileE st.fs p with
  | .error e => (.rejected e, st)
  | .ok content =>
    let filejson :=
      match parseJson content with
      | some j => j
      | none => Json.str content
    (.fulfilled filejson, emit st (.readEv p filejson))

/-- `write(fpath, data)`: emit the `write` event first, then serialize and
`writeFileSync`; the promise resolves with `undefined` or rejects with the
filesystem error. -/
def write (st : St) (p : List String) (v : Json) : Outcome Unit × St :=
  let st1 := emit st (.writeEv p v)
  match writeFileE st1.fs (serContent p v) p with
  | .ok fs2 => (.fulfilled (), St.mk fs2 st1.events)
  | .error e => (.rejected e, st1)

/-- `del(fpath)`: emit the `delete` event, then `unlink`. -/
def del (st : St) (p : List String) : Outcome Unit × St :=
  let st1 := emit st (.deleteEv p)
  match unlinkE st1.fs p with
  | .ok fs2 => (.fulfilled (), St.mk fs2 st1.events)
  | .error e => (.rejected e, st1)

/-- `rmdir(dpath)` method. -/
def rmdir (st : St) (p : List String) : Outcome Unit × St :=
  match rmdirE st.fs p with
  | .ok fs2 => (.fulfilled (), St.mk fs2 st.events)
  | .error e => (.rejected e, st)

/-- `mkdirp(dpath)`: try `mkdir`; on `ENOENT` provision the parent and retry
(the retry's rejection would escape the `try`, its value is returned as-is);
on any other failure re-`stat` and treat an existing directory as success,
otherwise return (not throw) the original error (`default:` branch of the
source, factored out as `mkdirpDefault`).  `fuel` bounds the recursion (the
source recursion is not structurally terminating); `none` means the fuel ran
out, never a behaviour of the source. -/
def mkdirpDefault (st : St) (p : List String) (er : Err) : Outcome RetV × St :=
  match statE st.fs p with
  | .ok t =>
    if t = .dirT then (.fulfilled .one, st)
    else (.fulfilled (.errv er), st)
  | .error e2 => (.fulfilled (.errv e2), st)

/-- `mkdirp(dpath)` proper (see the class doc above): try `mkdir`; on
`ENOENT` provision the parent and retry; otherwise `mkdirpDefault`. -/
def mkdirp : Nat → St → List String → Option (Outcome RetV × St)
  | 0, _, _ => none
  | f + 1, st, p =>
    match mkdirE st.fs p with
    | .ok fs2 => some (.fulfilled .one, St.mk fs2 st.events)
    | .error .ENOENT =>
      match mkdirp f st p.dropLast with
      | none => none
      | some (.rejected e1, st1) => some (.fulfilled (.errv e1), st1)
      | some (.fulfilled _, st1) => mkdirp f st1 p
    | .error e => some (mkdirpDefault st p e)
termination_by structural f => f

/-- Lift `write`'s promise into the dynamically-typed result of `writep`. -/
def liftWrite : Outcome Unit × St → Outcome RetV × St
  | (.fulfilled _, st) => (.fulfilled .unitv, st)
  | (.rejected e, st) => (.rejected e, st)

/-- `writep(fpath, data)`: provision the parent directory (result ignored),
`stat` the path; on `ENOENT` write, on another stat error return it, on an
existing file return the sentinel `1`, otherwise fall through to `write`. -/
def writep (fuel : Nat) (st : St) (p : List String) (v : Json) :
    Option (Outcome RetV × St) :=
  match mkdirp fuel st p.dropLast with
  | none => none
  | some (.rejected e, st1) => some (.rejected e, st1)
  | some (.fulfilled _, st1) =>
    match statE st1.fs p with
    | .error .ENOENT => some (liftWrite (write st1 p v))
    | .error e => some (.fulfilled (.errv e), st1)
    | .ok .fileT => some (.fulfilled .one, st1)
    | .ok _ => some (liftWrite (write st1 p v))

/-- Recursive removal of the named entries of a directory, in order, using
`step` for the recursive `rmrdir` call (the concurrent `Promise.all` over
the entries is modelled sequentially, first rejection wins). -/
def rmrAll (step : St → List String → Option (Outcome RetV × St)) :
    St → List String → List String → Option (Outcome Unit × St)
  | st, _, [] => some (.fulfilled (), st)
  | st, p, n :: ns =>
    match step st (p ++ [n]) with
    | none => none
    | some (.rejected e, st1) => some (.rejected e, st1)
    | some (.fulfilled _, st1) => rmrAll step st1 p ns

/-- `rmrdir(dpath)`: `stat` (a rejection propagates), delete a file via
`del`, recurse into a directory's entries and then `rmdir` it, and return the
sentinel `1` for anything else.  `fuel` bounds the recursion depth. -/
def rmrdir : Nat → St → List String → Option (Outcome RetV × St)
  | 0, _, _ => none
  | f + 1, st, p =>
    match statE st.fs p with
    | .error e => some (.rejected e, st)
    | .ok .fileT =>
      match del st p with
      | (.fulfilled _, st1) => some (.fulfilled .unitv, st1)
      | (.rejected e, st1) => some (.rejected e, st1)
    | .ok .dirT =>
      match readdirE st.fs p with
      | .error e => some (.rejected e, st)
      | .ok names =>
        match rmrAll (fun st2 q => rmrdir f st2 q) st p names with
        | none => none
        | some (.rejected e, st1) => some (.rejected e, st1)
        | some (.fulfilled _, st1) =>
          match rmdir st1 p with
          | (.fulfilled _, st2) => some (.fulfilled .unitv, st2)
          | (.rejected e, st2) => some (.rejected e, st2)
    | .ok .otherT => some (.fulfilled .one, st)
termination_by structural f => f

/-- `stat(fdpath)` method: the promisified `fs.stat`. -/
def stat (st : St) (p : List String) : Outcome FType × St :=
  match statE st.fs p with
  | .ok t => (.fulfilled t, st)
  | .error e => (.rejected e, st)

/-! ## String-level path resolution (`path.join(this.dirpath, fpath)`)

Used by every method; modelled here at the string level to analyse the
path-traversal claim.  `path.join` on an absolute root concatenates the
segments and normalizes: empty and `.` segments vanish and `..` pops the
previous segment (at the root it is dropped). -/

/-- Segments joined by `/` (`String.intercalate`-style, kept local so its
equations are directly usable). -/
def joinSegs : List String → String
  | [] => ""
  | [s] => s
  | s :: t :: ts => s ++ "/" ++ joinSegs (t :: ts)

/-- One step of path normalization. -/
def normStep (acc : List String) (s : String) : List String :=
  if s = "" ∨ s = "." then acc
  else if s = ".." then acc.dropLast
  else acc ++ [s]

/-- Split on the path separator (the `'/'`-splitting `path.join` performs;
agrees with `String.splitOn "/"`). -/
def splitSlashAux : List Char → List Char → List String
  | acc, [] => [String.mk acc.reverse]
  | acc, c :: r =>
    if c = '/' then String.mk acc.reverse :: splitSlashAux [] r
    else splitSlashAux (c :: acc) r

/-- The `'/'`-separated segments of a path string. -/
def splitSlash (s : String) : List String := splitSlashAux [] s.data

/-- `path.join(root, rel)` for an absolute `root`. -/
def joinPath (root rel : String) : String :=
  "/" ++ joinSegs ((splitSlash root ++ splitSlash rel).foldl normStep [])

/-- `q` lies under the root: it is the root itself or a proper descendant. -/
def isUnder (root q : String) : Prop :=
  q = root ∨ listPref (root ++ "/").data q.data = true

/-! ## Decimal printing: fuel irrelevance -/

theorem natCharsAux_irrel :
    ∀ n f1 f2, n < f1 → n < f2 → natCharsAux f1 n = natCharsAux f2 n := by
  intro n
  induction n using Nat.strong_induction_on with
  | _ n ih =>
    intro f1 f2 h1 h2
    obtain ⟨g1, rfl⟩ : ∃ g1, f1 = g1 + 1 := ⟨f1 - 1, by omega⟩
    obtain ⟨g2, rfl⟩ : ∃ g2, f2 = g2 + 1 := ⟨f2 - 1, by omega⟩
    rw [natCharsAux, natCharsAux]
    by_cases hn : n < 10
    · rw [if_pos hn, if_pos hn]
    · rw [if_neg hn, if_neg hn]
      have hsm : n / 10 < n := Nat.div_lt_self (by omega) (by omega)
      rw [ih (n / 10) hsm g1 g2 (by omega) (by omega)]

theorem natChars_step (n : Nat) :
    natChars n =
      if n < 10 then [Char.ofNat (48 + n)]
      else natChars (n / 10) ++ [Char.ofNat (48 + n % 10)] := by
  rw [natChars, natCharsAux]
  by_cases hn : n < 10
  · rw [if_pos hn, if_pos hn]
  · rw [if_neg hn, if_neg hn, natChars]
    have hsm : n / 10 < n := Nat.div_lt_self (by omega) (by omega)
    rw [natCharsAux_irrel (n / 10) n (n / 10 + 1) (by omega) (by omega)]

/-! ## Helper lemmas about the filesystem primitives -/

theorem statE_append {fs e : Entry} {q : List String} (r : List String)
    (h : lookupE fs q = some e) : statE fs (q ++ r) = statE e r := by
  induction q generalizing fs with
  | nil => simp only [lookupE, Option.some.injEq] at h; subst h; rfl
  | cons n q ih =>
    cases fs with
    | file c => simp [lookupE] at h
    | other => simp [lookupE] at h
    | dir cs =>
      rw [lookupE] at h
      cases hg : getChild cs n with
      | none => rw [hg] at h; simp at h
      | some c =>
        rw [hg] at h
        simp only [List.cons_append, statE, hg]
        exact ih h

theorem lookup_statE {fs e : Entry} {q : List String}
    (h : lookupE fs q = some e) : statE fs q = .ok (ftype e) := by
  have h2 := statE_append [] h
  rw [List.append_nil] at h2
  rw [h2]; rfl

theorem statE_ok_lookup {fs : Entry} {q : List String} {t : FType}
    (h : statE fs q = .ok t) : ∃ e, lookupE fs q = some e ∧ ftype e = t := by
  induction q generalizing fs with
  | nil =>
    refine ⟨fs, rfl, ?_⟩
    rw [statE] at h
    exact (Except.ok.injEq _ _).mp h
  | cons n q ih =>
    cases fs with
    | file c => simp [statE] at h
    | other => simp [statE] at h
    | dir cs =>
      rw [statE] at h
      cases hg : getChild cs n with
      | none => rw [hg] at h; simp at h
      | some c =>
        rw [hg] at h
        obtain ⟨e, he, ht⟩ := ih h
        exact ⟨e, by rw [lookupE, hg]; exact he, ht⟩

theorem statE_parent {fs : Entry} {p : List String} {t : FType}
    (h : statE fs p = .ok t) (hp : p ≠ []) :
    statE fs p.dropLast = .ok .dirT := by
  induction p generalizing fs with
  | nil => exact absurd rfl hp
  | cons n q ih =>
    cases fs with
    | file c => simp [statE] at h
    | other => simp [statE] at h
    | dir cs =>
      rw [statE] at h
      cases hg : getChild cs n with
      | none => rw [hg] at h; simp at h
      | some c =>
        rw [hg] at h
        cases q with
        | nil => rfl
        | cons m q2 =>
          have h3 := ih h (by simp)
          simp only [List.dropLast, statE, hg]
          exact h3

theorem statE_ENOENT_parent {fs : Entry} {q : List String}
    (h : statE fs q = .error .ENOENT) :
    q ≠ [] ∧ (statE fs q.dropLast = .ok .dirT ∨
      statE fs q.dropLast = .error .ENOENT) := by
  induction q generalizing fs with
  | nil => simp [statE] at h
  | cons n q ih =>
    cases fs with
    | file c => simp [statE] at h
    | other => simp [statE] at h
    | dir cs =>
      rw [statE] at h
      refine ⟨by simp, ?_⟩
      cases hg : getChild cs n with
      | none =>
        cases q with
        | nil => left; rfl
        | cons m q2 => right; simp only [List.dropLast, statE, hg]
      | some c =>
        rw [hg] at h
        cases q with
        | nil => simp [statE] at h
        | cons m q2 =>
          obtain ⟨-, hor⟩ := ih h
          cases hor with
          | inl hd =>
            left; simp only [List.dropLast, statE, hg]; exact hd
          | inr hd =>
            right; simp only [List.dropLast, statE, hg]; exact hd

theorem getChild_append_self {cs : List (String × Entry)} {n : String}
    (e : Entry) (h : getChild cs n = none) :
    getChild (cs ++ [(n, e)]) n = some e := by
  induction cs with
  | nil => simp [getChild]
  | cons kv rest ih =>
    by_cases hk : kv.1 = n
    · rw [getChild, if_pos hk] at h; simp at h
    · rw [getChild, if_neg hk] at h
      rw [List.cons_append, getChild, if_neg hk]
      exact ih h

theorem getChild_setChild {cs : List (String × Entry)} {n : String}
    {c : Entry} (e : Entry) (h : getChild cs n = some c) :
    getChild (setChild cs n e) n = some e := by
  induction cs with
  | nil => simp [getChild] at h
  | cons kv rest ih =>
    by_cases hk : kv.1 = n
    · simp [getChild, setChild, hk]
    · rw [getChild, if_neg hk] at h
      simp only [setChild, List.map_cons, if_neg hk]
      rw [getChild, if_neg hk]
      exact ih h

theorem mkdirE_exists {fs : Entry} {p : List String} {t : FType}
    (h : statE fs p = .ok t) : mkdirE fs p = .error .EEXIST := by
  induction p generalizing fs with
  | nil => rfl
  | cons n q ih =>
    cases fs with
    | file c => simp [statE] at h
    | other => simp [statE] at h
    | dir cs =>
      rw [statE] at h
      cases hg : getChild cs n with
      | none => rw [hg] at h; simp at h
      | some c =>
        rw [hg] at h
        cases q with
        | nil => simp [mkdirE, hg]
        | cons m q2 => simp [mkdirE, hg, ih h, Except.map]

theorem mkdirE_missing_parent {fs : Entry} {p : List String}
    (h : statE fs p.dropLast = .error .ENOENT) :
    mkdirE fs p = .error .ENOENT := by
  induction p generalizing fs with
  | nil => simp [statE] at h
  | cons n q ih =>
    cases q with
    | nil => simp [statE] at h
    | cons m q2 =>
      cases fs with
      | file c => simp [List.dropLast, statE] at h
      | other => simp [List.dropLast, statE] at h
      | dir cs =>
        simp only [List.dropLast, statE] at h
        cases hg : getChild cs n with
        | none => simp [mkdirE, hg]
        | some c =>
          rw [hg] at h
          simp [mkdirE, hg, ih h, Except.map]

theorem mkdirE_under {fs : Entry} {q : List String} {cs : List (String × Entry)}
    (n : String) (h : lookupE fs q = some (.dir cs)) (hn : getChild cs n = none) :
    ∃ fs2, mkdirE fs (q ++ [n]) = .ok fs2 ∧
      lookupE fs2 (q ++ [n]) = some (.dir []) := by
  induction q generalizing fs with
  | nil =>
    simp only [lookupE, Option.some.injEq] at h
    subst h
    refine ⟨.dir (cs ++ [(n, .dir [])]), by simp [mkdirE, hn], ?_⟩
    rw [List.nil_append, lookupE, getChild_append_self _ hn]
    rfl
  | cons m q2 ih =>
    cases fs with
    | file c => simp [lookupE] at h
    | other => simp [lookupE] at h
    | dir ds =>
      rw [lookupE] at h
      cases hg : getChild ds m with
      | none => rw [hg] at h; simp at h
      | some c =>
        rw [hg] at h
        obtain ⟨fs2c, hmk, hlk⟩ := ih h
        refine ⟨.dir (setChild ds m fs2c), ?_, ?_⟩
        · rw [List.cons_append]
          cases hq2 : q2 ++ [n] with
          | nil => simp at hq2
          | cons a b =>
            rw [hq2] at hmk
            simp only [mkdirE, hg]
            rw [hmk]
            rfl
        · rw [List.cons_append, lookupE, getChild_setChild _ hg]
          exact hlk

theorem writeFileE_under {fs : Entry} {q : List String}
    {cs : List (String × Entry)} (n : String) (c : String)
    (h : lookupE fs q = some (.dir cs)) (hn : getChild cs n = none) :
    ∃ fs2, writeFileE fs c (q ++ [n]) = .ok fs2 ∧
      lookupE fs2 (q ++ [n]) = some (.file c) := by
  induction q generalizing fs with
  | nil =>
    simp only [lookupE, Option.some.injEq] at h
    subst h
    refine ⟨.dir (cs ++ [(n, .file c)]), by simp [writeFileE, hn], ?_⟩
    rw [List.nil_append, lookupE, getChild_append_self _ hn]
    rfl
  | cons m q2 ih =>
    cases fs with
    | file s => simp [lookupE] at h
    | other => simp [lookupE] at h
    | dir ds =>
      rw [lookupE] at h
      cases hg : getChild ds m with
      | none => rw [hg] at h; simp at h
      | some ch =>
        rw [hg] at h
        obtain ⟨fs2c, hwr, hlk⟩ := ih h
        refine ⟨.dir (setChild ds m fs2c), ?_, ?_⟩
        · rw [List.cons_append]
          cases hq2 : q2 ++ [n] with
          | nil => simp at hq2
          | cons a b =>
            rw [hq2] at hwr
            simp only [writeFileE, hg]
            rw [hwr]
            rfl
        · rw [List.cons_append, lookupE, getChild_setChild _ hg]
          exact hlk

theorem writeFileE_ok_lookup {fs fs2 : Entry} {p : List String} {c : String}
    (h : writeFileE fs c p = .ok fs2) : lookupE fs2 p = some (.file c) := by
  induction p generalizing fs fs2 with
  | nil =>
    cases fs with
    | file s =>
      rw [writeFileE] at h
      simp only [Except.ok.injEq] at h
      subst h; rfl
    | dir cs => simp [writeFileE] at h
    | other => simp [writeFileE] at h
  | cons n q ih =>
    cases fs with
    | file s =>
      cases q with
      | nil => simp [writeFileE] at h
      | cons m q2 => simp [writeFileE] at h
    | other =>
      cases q with
      | nil => simp [writeFileE] at h
      | cons m q2 => simp [writeFileE] at h
    | dir cs =>
      cases q with
      | nil =>
        cases hg : getChild cs n with
        | some ch =>
          rw [writeFileE] at h
          simp only [hg] at h
          cases hw : writeFileE ch c [] with
          | error e => rw [hw] at h; simp [Except.map] at h
          | ok ch2 =>
            rw [hw] at h
            simp only [Except.map, Except.ok.injEq] at h
            subst h
            rw [lookupE, getChild_setChild _ hg]
            exact ih hw
        | none =>
          rw [writeFileE] at h
          simp only [hg, Except.ok.injEq] at h
          subst h
          rw [lookupE, getChild_append_self _ hg]
          rfl
      | cons m q2 =>
        cases hg : getChild cs n with
        | some ch =>
          rw [writeFileE] at h
          simp only [hg] at h
          cases hw : writeFileE ch c (m :: q2) with
          | error e => rw [hw] at h; simp [Except.map] at h
          | ok ch2 =>
            rw [hw] at h
            simp only [Except.map, Except.ok.injEq] at h
            subst h
            rw [lookupE, getChild_setChild _ hg]
            exact ih hw
        | none =>
          rw [writeFileE] at h
          simp only [hg] at h
          simp at h

theorem writeFileE_missing_parent {fs : Entry} {p : List String} (c : String)
    (h : statE fs p.dropLast = .error .ENOENT) :
    writeFileE fs c p = .error .ENOENT := by
  induction p generalizing fs with
  | nil => simp [statE] at h
  | cons n q ih =>
    cases q with
    | nil => simp [statE] at h
    | cons m q2 =>
      cases fs with
      | file s => simp [List.dropLast, statE] at h
      | other => simp [List.dropLast, statE] at h
      | dir cs =>
        simp only [List.dropLast, statE] at h
        cases hg : getChild cs n with
        | none => simp [writeFileE, hg]
        | some ch =>
          rw [hg] at h
          simp [writeFileE, hg, ih h, Except.map]

theorem writeFileE_dir {fs : Entry} {p : List String} (c : String)
    (h : statE fs p = .ok .dirT) : writeFileE fs c p = .error .EISDIR := by
  obtain ⟨e, hlk, ht⟩ := statE_ok_lookup h
  cases e with
  | file s => simp [ftype] at ht
  | other => simp [ftype] at ht
  | dir cs =>
    clear ht h
    induction p generalizing fs with
    | nil =>
      simp only [lookupE, Option.some.injEq] at hlk
      subst hlk; rfl
    | cons n q ih =>
      cases fs with
      | file s => simp [lookupE] at hlk
      | other => simp [lookupE] at hlk
      | dir ds =>
        rw [lookupE] at hlk
        cases hg : getChild ds n with
        | none => rw [hg] at hlk; simp at hlk
        | some ch =>
          rw [hg] at hlk
          cases q with
          | nil =>
            simp only [lookupE, Option.some.injEq] at hlk
            subst hlk
            simp [writeFileE, hg, Except.map]
          | cons m q2 => simp [writeFileE, hg, ih hlk, Except.map]

theorem mkdirE_ok_lookup {fs fs2 : Entry} {p : List String}
    (h : mkdirE fs p = .ok fs2) : lookupE fs2 p = some (.dir []) := by
  induction p generalizing fs fs2 with
  | nil => simp [mkdirE] at h
  | cons n q ih =>
    cases fs with
    | file s =>
      cases q with
      | nil => simp [mkdirE] at h
      | cons m q2 => simp [mkdirE] at h
    | other =>
      cases q with
      | nil => simp [mkdirE] at h
      | cons m q2 => simp [mkdirE] at h
    | dir cs =>
      cases q with
      | nil =>
        cases hg : getChild cs n with
        | some ch =>
          rw [mkdirE] at h
          simp [hg] at h
        | none =>
          rw [mkdirE] at h
          simp only [hg, Except.ok.injEq] at h
          subst h
          rw [lookupE, getChild_append_self _ hg]
          rfl
      | cons m q2 =>
        cases hg : getChild cs n with
        | some ch =>
          rw [mkdirE] at h
          simp only [hg] at h
          cases hw : mkdirE ch (m :: q2) with
          | error e => rw [hw] at h; simp [Except.map] at h
          | ok ch2 =>
            rw [hw] at h
            simp only [Except.map, Except.ok.injEq] at h
            subst h
            rw [lookupE, getChild_setChild _ hg]
            exact ih hw
        | none =>
          rw [mkdirE] at h
          simp [hg] at h

/-! ## Helper lemmas about the FileServer methods -/

theorem write_ok_shape {st st2 : St} {p : List String} {v : Json}
    (h : write st p v = (.fulfilled (), st2)) :
    writeFileE st.fs (serContent p v) p = .ok st2.fs ∧
    st2.events = st.events ++ [Event.writeEv p v] := by
  simp only [write, emit] at h
  cases hw : writeFileE st.fs (serContent p v) p with
  | ok fs2 =>
    simp only [hw, Prod.mk.injEq] at h
    obtain ⟨-, h2⟩ := h
    subst h2
    exact ⟨rfl, rfl⟩
  | error e =>
    simp only [hw, Prod.mk.injEq] at h
    simp at h

theorem mkdirpDefault_fulfilled (st : St) (p : List String) (er : Err) :
    ∃ w, mkdirpDefault st p er = (.fulfilled w, st) := by
  rw [mkdirpDefault]
  cases hs : statE st.fs p with
  | ok t =>
    by_cases ht : t = .dirT
    · subst ht
      exact ⟨.one, by simp⟩
    · exact ⟨.errv er, by simp [ht]⟩
  | error e2 => exact ⟨.errv e2, by simp⟩

theorem mkdirpDefault_one {st st2 : St} {p : List String} {er : Err}
    (h : mkdirpDefault st p er = (.fulfilled .one, st2)) :
    statE st.fs p = .ok .dirT ∧ st2 = st := by
  rw [mkdirpDefault] at h
  cases hs : statE st.fs p with
  | ok t =>
    simp only [hs] at h
    by_cases ht : t = .dirT
    · subst ht
      rw [if_pos rfl] at h
      simp only [Prod.mk.injEq] at h
      exact ⟨rfl, h.2.symm⟩
    · rw [if_neg ht] at h
      simp at h
  | error e2 =>
    simp only [hs] at h
    simp at h

theorem mkdirp_exist_noop {st : St} {q : List String} {t : FType} {f : Nat}
    (h : statE st.fs q = .ok t) (hf : 1 ≤ f) :
    mkdirp f st q =
      some (.fulfilled (if t = .dirT then RetV.one else .errv .EEXIST), st) := by
  obtain ⟨f2, rfl⟩ : ∃ f2, f = f2 + 1 := ⟨f - 1, by omega⟩
  rw [mkdirp]
  simp only [mkdirE_exists h]
  rw [mkdirpDefault]
  simp only [h]
  by_cases ht : t = .dirT
  · simp [ht]
  · simp [ht]

theorem mkdirp_parent_noop {st : St} {p : List String} {t : FType} {f : Nat}
    (h : statE st.fs p = .ok t) (hf : 1 ≤ f) :
    ∃ w, mkdirp f st p.dropLast = some (.fulfilled w, st) := by
  cases p with
  | nil => exact ⟨_, mkdirp_exist_noop rfl hf⟩
  | cons a b =>
    have hd := statE_parent h (by simp)
    exact ⟨_, mkdirp_exist_noop hd hf⟩

theorem mkdirp_fulfilled :
    ∀ (f : Nat) {st : St} {p : List String} {o : Outcome RetV} {st2 : St},
      mkdirp f st p = some (o, st2) → ∃ w, o = .fulfilled w := by
  intro f
  induction f with
  | zero =>
    intro st p o st2 h
    simp [mkdirp] at h
  | succ f ih =>
    intro st p o st2 h
    cases hm : mkdirE st.fs p with
    | ok fs2 =>
      rw [mkdirp] at h
      simp only [hm, Option.some.injEq, Prod.mk.injEq] at h
      exact ⟨.one, h.1.symm⟩
    | error e =>
      by_cases he : e = .ENOENT
      · subst he
        rw [mkdirp] at h
        simp only [hm] at h
        cases hi : mkdirp f st p.dropLast with
        | none => rw [hi] at h; simp at h
        | some r =>
          obtain ⟨o1, st1⟩ := r
          cases o1 with
          | rejected e1 =>
            simp only [hi, Option.some.injEq, Prod.mk.injEq] at h
            exact ⟨.errv e1, h.1.symm⟩
          | fulfilled w =>
            simp only [hi] at h
            exact ih h
      · have hred : mkdirp (f + 1) st p = some (mkdirpDefault st p e) := by
          rw [mkdirp]
          simp only [hm]
        rw [hred] at h
        obtain ⟨w, hw⟩ := mkdirpDefault_fulfilled st p e
        rw [hw] at h
        simp only [Option.some.injEq, Prod.mk.injEq] at h
        exact ⟨w, h.1.symm⟩

theorem mkdirp_one_dir :
    ∀ (f : Nat) {st : St} {p : List String} {st2 : St},
      mkdirp f st p = some (.fulfilled .one, st2) → statE st2.fs p = .ok .dirT := by
  intro f
  induction f with
  | zero =>
    intro st p st2 h
    simp [mkdirp] at h
  | succ f ih =>
    intro st p st2 h
    cases hm : mkdirE st.fs p with
    | ok fs2 =>
      rw [mkdirp] at h
      simp only [hm, Option.some.injEq, Prod.mk.injEq] at h
      have h2 := h.2
      subst h2
      exact lookup_statE (mkdirE_ok_lookup hm)
    | error e =>
      by_cases he : e = .ENOENT
      · subst he
        rw [mkdirp] at h
        simp only [hm] at h
        cases hi : mkdirp f st p.dropLast with
        | none => rw [hi] at h; simp at h
        | some r =>
          obtain ⟨o1, st1⟩ := r
          cases o1 with
          | rejected e1 =>
            simp only [hi] at h
            simp at h
          | fulfilled w =>
            simp only [hi] at h
            exact ih h
      · have hred : mkdirp (f + 1) st p = some (mkdirpDefault st p e) := by
          rw [mkdirp]
          simp only [hm]
        rw [hred] at h
        have h2 := Option.some.inj h
        obtain ⟨hs, hst⟩ := mkdirpDefault_one h2
        subst hst
        exact hs

theorem mkdirp_creates :
    ∀ (f : Nat) {st : St} {q : List String},
      statE st.fs q = .error .ENOENT → q.length + 1 ≤ f →
      ∃ fs2, mkdirp f st q = some (.fulfilled .one, St.mk fs2 st.events) ∧
        lookupE fs2 q = some (.dir []) := by
  intro f
  induction f with
  | zero =>
    intro st q h hf
    omega
  | succ f ih =>
    intro st q h hf
    obtain ⟨hq, hor⟩ := statE_ENOENT_parent h
    obtain ⟨q0, n, rfl⟩ : ∃ q0 n, q = q0 ++ [n] :=
      ⟨q.dropLast, q.getLast hq, (List.dropLast_append_getLast hq).symm⟩
    cases hor with
    | inl hdir =>
      rw [List.dropLast_concat] at hdir
      obtain ⟨e, hlk, ht⟩ := statE_ok_lookup hdir
      cases e with
      | file s => simp [ftype] at ht
      | other => simp [ftype] at ht
      | dir cs =>
        have h2 : statE (Entry.dir cs) [n] = .error .ENOENT := by
          rw [← statE_append [n] hlk]
          exact h
        have hn : getChild cs n = none := by
          rw [statE] at h2
          cases hg : getChild cs n with
          | none => rfl
          | some c => simp only [hg] at h2; simp [statE] at h2
        obtain ⟨fs2, hmk, hlk2⟩ := mkdirE_under n hlk hn
        refine ⟨fs2, ?_, hlk2⟩
        rw [mkdirp]
        simp only [hmk]
    | inr hmiss =>
      rw [List.dropLast_concat] at hmiss
      have hmk0 : mkdirE st.fs (q0 ++ [n]) = .error .ENOENT := by
        refine mkdirE_missing_parent ?_
        rw [List.dropLast_concat]
        exact hmiss
      have hf0 : q0.length + 1 ≤ f := by
        simp only [List.length_append, List.length_cons, List.length_nil] at hf
        omega
      obtain ⟨fs1, hm1, hlk1⟩ := ih hmiss hf0
      obtain ⟨f2, hf2⟩ : ∃ f2, f = f2 + 1 := ⟨f - 1, by omega⟩
      have hn1 : getChild ([] : List (String × Entry)) n = none := rfl
      obtain ⟨fs2, hmk2, hlk2⟩ := mkdirE_under n hlk1 hn1
      refine ⟨fs2, ?_, hlk2⟩
      rw [mkdirp]
      simp only [hmk0, List.dropLast_concat, hm1]
      rw [hf2, mkdirp]
      simp only [hmk2]


theorem writeFileE_other {fs : Entry} {p : List String} (c : String)
    (h : statE fs p = .ok .otherT) : writeFileE fs c p = .error .EPERM := by
  obtain ⟨e, hlk, ht⟩ := statE_ok_lookup h
  cases e with
  | file s => simp [ftype] at ht
  | dir cs => simp [ftype] at ht
  | other =>
    clear ht h
    induction p generalizing fs with
    | nil =>
      simp only [lookupE, Option.some.injEq] at hlk
      subst hlk; rfl
    | cons n q ih =>
      cases fs with
      | file s => simp [lookupE] at hlk
      | other => simp [lookupE] at hlk
      | dir ds =>
        rw [lookupE] at hlk
        cases hg : getChild ds n with
        | none => rw [hg] at hlk; simp at hlk
        | some ch =>
          rw [hg] at hlk
          cases q with
          | nil =>
            simp only [lookupE, Option.some.injEq] at hlk
            subst hlk
            simp [writeFileE, hg, Except.map]
          | cons m q2 => simp [writeFileE, hg, ih hlk, Except.map]

/-- A `writep` call that fulfills with `undefined` (the fresh-write result)
actually wrote: the path now holds the serialized document. -/
theorem writep_unitv {f : Nat} {st st1 : St} {p : List String} {v : Json}
    (h : writep f st p v = some (.fulfilled .unitv, st1)) :
    lookupE st1.fs p = some (.file (serContent p v)) := by
  rw [writep] at h
  cases hm : mkdirp f st p.dropLast with
  | none => rw [hm] at h; simp at h
  | some r =>
    obtain ⟨o1, stm⟩ := r
    cases o1 with
    | rejected e =>
      simp only [hm] at h
      simp at h
    | fulfilled w =>
      simp only [hm] at h
      cases hs : statE stm.fs p with
      | error e =>
        by_cases he : e = .ENOENT
        · subst he
          simp only [hs] at h
          cases hw2 : write stm p v with
          | mk o2 st2 =>
            cases o2 with
            | rejected e2 =>
              rw [hw2] at h
              simp [liftWrite] at h
            | fulfilled u =>
              rw [hw2] at h
              simp only [liftWrite, Option.some.injEq, Prod.mk.injEq] at h
              obtain ⟨-, h2⟩ := h
              subst h2
              exact writeFileE_ok_lookup (write_ok_shape hw2).1
        · have hred :
              (match statE stm.fs p with
                | .error .ENOENT => some (liftWrite (write stm p v))
                | .error e => some (.fulfilled (.errv e), stm)
                | .ok .fileT => some (.fulfilled .one, stm)
                | .ok _ => some (liftWrite (write stm p v))) =
              some (.fulfilled (.errv e), stm) := by
            simp only [hs]
          rw [hred] at h
          simp at h
      | ok t =>
        cases t with
        | fileT =>
          simp only [hs] at h
          simp at h
        | dirT =>
          simp only [hs] at h
          have hw := writeFileE_dir (serContent p v) hs
          simp only [write, emit, hw, liftWrite] at h
          simp at h
        | otherT =>
          simp only [hs] at h
          have hw := writeFileE_other (serContent p v) hs
          simp only [write, emit, hw, liftWrite] at h
          simp at h

/-! ## The claims -/

/-- Claim C8: `write(p, v)` emits the `write` notification with the path and
the pre-serialization value before the filesystem write is attempted, so the
event is in the log whether the write succeeds or rejects. -/
theorem claimC8 (st : St) (p : List String) (v : Json) :
    ((write st p v).2).events = st.events ++ [Event.writeEv p v] := by
  simp only [write, emit]
  cases hw : writeFileE st.fs (serContent p v) p <;> simp

/-- Claim C10: the promise returned by `mkdirp` always fulfills and never
rejects — every failure is delivered as the fulfilled value (an `Error`
object), not as a rejection. -/
theorem claimC10 (f : Nat) (st : St) (p : List String) (o : Outcome RetV)
    (st2 : St) (h : mkdirp f st p = some (o, st2)) :
    ∃ w, o = .fulfilled w :=
  mkdirp_fulfilled f h

theorem claimC10_witness :
    ∃ w, (Outcome.fulfilled RetV.one : Outcome RetV) = .fulfilled w :=
  claimC10 1 (St.mk (.dir []) []) ["a"] (.fulfilled .one)
    (St.mk (.dir [("a", .dir [])]) []) rfl

/-- Claim C6: `mkdirp` is idempotent — a second call after a successful one
succeeds again and leaves the tree unchanged (the second call's `EEXIST` is
resolved by re-statting and treating an existing directory as success) — and
a non-directory occupant makes `mkdirp` return the original `EEXIST`
creation error. -/
theorem claimC6 :
    (∀ f1 f2 st p st2, mkdirp f1 st p = some (.fulfilled .one, st2) → 1 ≤ f2 →
      mkdirp f2 st2 p = some (.fulfilled .one, st2)) ∧
    (∀ f st p t, statE st.fs p = .ok t → t ≠ .dirT → 1 ≤ f →
      mkdirp f st p = some (.fulfilled (.errv .EEXIST), st)) := by
  constructor
  · intro f1 f2 st p st2 h hf
    have hd := mkdirp_one_dir f1 h
    have h2 := mkdirp_exist_noop hd hf
    simpa using h2
  · intro f st p t h ht hf
    have h2 := mkdirp_exist_noop h hf
    rw [if_neg ht] at h2
    exact h2

theorem claimC6_witness :
    mkdirp 1 (St.mk (.dir [("a", .dir [])]) []) ["a"] =
      some (.fulfilled .one, St.mk (.dir [("a", .dir [])]) []) ∧
    mkdirp 1 (St.mk (.dir [("f", .file "x")]) []) ["f"] =
      some (.fulfilled (.errv .EEXIST), St.mk (.dir [("f", .file "x")]) []) :=
  ⟨claimC6.1 1 1 (St.mk (.dir []) []) ["a"]
      (St.mk (.dir [("a", .dir [])]) []) rfl (by decide),
    claimC6.2 1 (St.mk (.dir [("f", .file "x")]) []) ["f"] .fileT rfl
      (by decide) (by decide)⟩

/-- Claim C7: when the parent directory of `p` is missing (and the existing
part of the ancestor chain is directories, which is what a plain `ENOENT`
from `stat` on the parent says), `write` rejects with `ENOENT` while
`writep` succeeds because it provisions the parent first. -/
theorem claimC7 (f : Nat) (st : St) (p : List String) (v : Json)
    (hpar : statE st.fs p.dropLast = .error .ENOENT)
    (hf : p.length ≤ f) :
    (write st p v).1 = .rejected .ENOENT ∧
    ∃ st2, writep f st p v = some (.fulfilled .unitv, st2) := by
  constructor
  · have hw := writeFileE_missing_parent (serContent p v) hpar
    simp [write, emit, hw]
  · have hq : p ≠ [] := by
      intro hp
      rw [hp] at hpar
      simp [statE] at hpar
    have hlp : 0 < p.length := List.length_pos.mpr hq
    have hf2 : p.dropLast.length + 1 ≤ f := by
      simp only [List.length_dropLast]
      omega
    obtain ⟨fs1, hm1, hlk1⟩ := mkdirp_creates f hpar hf2
    obtain ⟨q0, n, hpq⟩ : ∃ q0 n, p = q0 ++ [n] :=
      ⟨p.dropLast, p.getLast hq, (List.dropLast_append_getLast hq).symm⟩
    have hq0 : p.dropLast = q0 := by rw [hpq, List.dropLast_concat]
    rw [hq0] at hlk1
    have hstp : statE fs1 p = .error .ENOENT := by
      rw [hpq, statE_append [n] hlk1]
      rfl
    have hn1 : getChild ([] : List (String × Entry)) n = none := rfl
    obtain ⟨fs2, hw2, hlk2⟩ := writeFileE_under n (serContent p v) hlk1 hn1
    refine ⟨St.mk fs2 (st.events ++ [Event.writeEv p v]), ?_⟩
    rw [writep]
    simp only [hm1]
    simp only [hstp]
    rw [← hpq] at hw2
    simp only [write, emit, hw2, liftWrite]

/-- Witness for C7 at a concrete empty store. -/
theorem claimC7_witness :
    ((write (St.mk (.dir []) []) ["a", "b", "doc.json"]
        (.obj [("x", .num 1)])).1 = .rejected .ENOENT) ∧
    ∃ st2, writep 3 (St.mk (.dir []) []) ["a", "b", "doc.json"]
        (.obj [("x", .num 1)]) = some (.fulfilled .unitv, st2) :=
  claimC7 3 (St.mk (.dir []) []) ["a", "b", "doc.json"]
    (.obj [("x", .num 1)]) rfl (by decide)

/-- Claim C5: after `writep(p, v1)` succeeds as a fresh write, a subsequent
`writep(p, v2)` is a no-op: it returns the sentinel `1`, leaves the state
(and hence the document content, the serialization of `v1`) unchanged. -/
theorem claimC5 (f1 f2 : Nat) (st st1 : St) (p : List String) (v1 v2 : Json)
    (h1 : writep f1 st p v1 = some (.fulfilled .unitv, st1))
    (hf : 1 ≤ f2) :
    writep f2 st1 p v2 = some (.fulfilled .one, st1) ∧
    lookupE st1.fs p = some (.file (serContent p v1)) := by
  have hlk := writep_unitv h1
  have hst : statE st1.fs p = .ok .fileT := lookup_statE hlk
  refine ⟨?_, hlk⟩
  obtain ⟨w, hmk⟩ := mkdirp_parent_noop hst hf
  rw [writep]
  simp only [hmk]
  simp only [hst]

/-- Witness for C5: a fresh write of `{"a": 2}` to `doc.json`, then the
second `writep` returns the sentinel and the content is the serialization of
the first value. -/
theorem claimC5_witness :
    writep 1 (St.mk (.dir [("doc.json", .file ("\x7b\n  \"a\": 2\n\x7d"))])
        [Event.writeEv ["doc.json"] (.obj [("a", .num 2)])]) ["doc.json"]
        (.obj []) =
      some (.fulfilled .one,
        St.mk (.dir [("doc.json", .file ("\x7b\n  \"a\": 2\n\x7d"))])
          [Event.writeEv ["doc.json"] (.obj [("a", .num 2)])]) ∧
    lookupE (Entry.dir [("doc.json", .file ("\x7b\n  \"a\": 2\n\x7d"))])
        ["doc.json"] =
      some (.file (serContent ["doc.json"] (.obj [("a", .num 2)]))) :=
  claimC5 2 1 (St.mk (.dir []) [])
    (St.mk (.dir [("doc.json", .file ("\x7b\n  \"a\": 2\n\x7d"))])
      [Event.writeEv ["doc.json"] (.obj [("a", .num 2)])])
    ["doc.json"] (.obj [("a", .num 2)]) (.obj []) rfl (by decide)

/-- Claim C1 (counterexample): with a directory occupying `d.json`,
`writep` does not return the "already exists" sentinel `1`: it attempts the
write — the `write` notification is emitted — and the promise rejects with
`EISDIR`. -/
theorem claimC1_counterexample :
    writep 1 (St.mk (.dir [("d.json", .dir [])]) []) ["d.json"] (.obj []) =
      some (.rejected .EISDIR,
        St.mk (.dir [("d.json", .dir [])])
          [Event.writeEv ["d.json"] (.obj [])]) ∧
    (Outcome.rejected Err.EISDIR : Outcome RetV) ≠ .fulfilled .one :=
  ⟨rfl, by simp⟩

/-- Claim C1 as amended: the sentinel is returned only for a file occupant;
for a path occupied by a directory, `writep` falls through to `write`, which
emits the `write` notification and rejects with `EISDIR` (no content
changes, because the underlying write fails). -/
theorem claimC1_amended (f : Nat) (st : St) (p : List String) (v : Json)
    (hdir : statE st.fs p = .ok .dirT) (hf : 1 ≤ f) :
    writep f st p v = some (.rejected .EISDIR, emit st (.writeEv p v)) := by
  obtain ⟨w, hmk⟩ := mkdirp_parent_noop hdir hf
  rw [writep]
  simp only [hmk]
  simp only [hdir]
  have hw := writeFileE_dir (serContent p v) hdir
  simp only [write, emit, hw, liftWrite]

/-- Witness for the amended C1 at a concrete directory-occupied path. -/
theorem claimC1_witness :
    writep 1 (St.mk (.dir [("d", .dir [])]) []) ["d"] (.num 5) =
      some (.rejected .EISDIR,
        emit (St.mk (.dir [("d", .dir [])]) []) (.writeEv ["d"] (.num 5))) :=
  claimC1_amended 1 (St.mk (.dir [("d", .dir [])]) []) ["d"] (.num 5) rfl
    (by decide)

/-- Claim C2 (counterexample): `rmrdir` on an absent path does not return a
success sentinel — the `stat` rejection propagates and the promise rejects
with `ENOENT`. -/
theorem claimC2_counterexample :
    rmrdir 1 (St.mk (.dir []) []) ["x"] =
      some (.rejected .ENOENT, St.mk (.dir []) []) ∧
    (Outcome.rejected Err.ENOENT : Outcome RetV) ≠ .fulfilled .one :=
  ⟨rfl, by simp⟩

/-- Claim C2 as amended: `rmrdir` on an absent path rejects with the `stat`
error (`ENOENT`); the no-op success sentinel `1` is returned only when the
path exists but is neither a regular file nor a directory. -/
theorem claimC2_amended :
    (∀ f st p, 1 ≤ f → statE st.fs p = .error .ENOENT →
      rmrdir f st p = some (.rejected .ENOENT, st)) ∧
    (∀ f st p, 1 ≤ f → statE st.fs p = .ok .otherT →
      rmrdir f st p = some (.fulfilled .one, st)) := by
  constructor
  · intro f st p hf h
    obtain ⟨f2, rfl⟩ : ∃ f2, f = f2 + 1 := ⟨f - 1, by omega⟩
    rw [rmrdir]
    simp only [h]
  · intro f st p hf h
    obtain ⟨f2, rfl⟩ : ∃ f2, f = f2 + 1 := ⟨f - 1, by omega⟩
    rw [rmrdir]
    simp only [h]

/-- Witness for the amended C2: a special-file entry yields the sentinel,
an absent path yields the `ENOENT` rejection. -/
theorem claimC2_witness :
    rmrdir 1 (St.mk (.dir [("s", .other)]) []) ["s"] =
      some (.fulfilled .one, St.mk (.dir [("s", .other)]) []) ∧
    rmrdir 1 (St.mk (.dir [("a", .dir [])]) []) ["a", "b"] =
      some (.rejected .ENOENT, St.mk (.dir [("a", .dir [])]) []) :=
  ⟨claimC2_amended.2 1 (St.mk (.dir [("s", .other)]) []) ["s"]
      (by decide) rfl,
    claimC2_amended.1 1 (St.mk (.dir [("a", .dir [])]) []) ["a", "b"]
      (by decide) rfl⟩

/-! ## Path-resolution lemmas (claim C9) -/

theorem listPref_append {α : Type} [DecidableEq α] (a b : List α) :
    listPref a (a ++ b) = true := by
  induction a with
  | nil => rfl
  | cons x xs ih => simp [listPref, ih]

theorem strData_append (a b : String) : (a ++ b).data = a.data ++ b.data := rfl

theorem foldl_normStep_normal {rs : List String}
    (hrs : ∀ s ∈ rs, ¬s = "" ∧ ¬s = "." ∧ ¬s = "..") :
    ∀ acc, List.foldl normStep acc rs = acc ++ rs := by
  induction rs with
  | nil => intro acc; simp
  | cons s r ih =>
    intro acc
    obtain ⟨h1, h2, h3⟩ := hrs s (by simp)
    have hstep : normStep acc s = acc ++ [s] := by
      rw [normStep, if_neg (by tauto), if_neg h3]
    rw [List.foldl_cons, hstep,
      ih (fun x hx => hrs x (by simp [hx])) (acc ++ [s])]
    simp

theorem foldl_normStep_noDotDot {l : List String}
    (hl : ∀ s ∈ l, ¬s = "..") :
    ∀ acc, ∃ t, List.foldl normStep acc l = acc ++ t := by
  induction l with
  | nil => intro acc; exact ⟨[], by simp⟩
  | cons s r ih =>
    intro acc
    have h3 := hl s (by simp)
    have ihr := ih (fun x hx => hl x (by simp [hx]))
    rw [List.foldl_cons]
    by_cases h12 : s = "" ∨ s = "."
    · have hstep : normStep acc s = acc := by rw [normStep, if_pos h12]
      rw [hstep]
      exact ihr acc
    · have hstep : normStep acc s = acc ++ [s] := by
        rw [normStep, if_neg h12, if_neg h3]
      rw [hstep]
      obtain ⟨t2, ht2⟩ := ihr (acc ++ [s])
      exact ⟨s :: t2, by rw [ht2]; simp⟩

theorem joinSegs_append (rs : List String) (hrs : rs ≠ []) (t : List String)
    (ht : t ≠ []) :
    joinSegs (rs ++ t) = joinSegs rs ++ "/" ++ joinSegs t := by
  induction rs with
  | nil => exact absurd rfl hrs
  | cons r rrest ih =>
    cases rrest with
    | nil =>
      cases t with
      | nil => exact absurd rfl ht
      | cons x ts => rfl
    | cons r2 rr =>
      have ih2 := ih (by simp)
      rw [List.cons_append]
      have h2 : joinSegs (r :: ((r2 :: rr) ++ t)) =
          r ++ "/" ++ joinSegs ((r2 :: rr) ++ t) := by
        cases hc : (r2 :: rr) ++ t with
        | nil => simp at hc
        | cons a b => rw [joinSegs]
      rw [h2, ih2]
      rw [joinSegs]
      simp [String.append_assoc]

theorem listPref_assoc_helper (d1 d2 d3 d4 : List Char) :
    listPref (d1 ++ (d2 ++ d3)) (d1 ++ (d2 ++ (d3 ++ d4))) = true := by
  have h : d1 ++ (d2 ++ (d3 ++ d4)) = (d1 ++ (d2 ++ d3)) ++ d4 := by simp
  rw [h]
  exact listPref_append _ _

/-- Claim C9 (counterexample): path resolution is plain join-and-normalize;
a relative path with `..` segments resolves outside the store root. -/
theorem claimC9_counterexample :
    joinPath ("/data") ("../../etc/passwd") = "/etc/passwd" ∧
    ¬ isUnder ("/data") ("/etc/passwd") := by
  refine ⟨rfl, ?_⟩
  intro h
  cases h with
  | inl h => exact absurd h (by decide)
  | inr h => exact absurd h (by decide)

/-- Claim C9 as amended: for a caller-supplied relative path whose segments
contain no parent-traversal (`..`), the resolved path is always rooted under
the store root; only `..` segments can escape (see the counterexample). -/
theorem claimC9_amended (root rel : String) (rs : List String)
    (hroot : root = "/" ++ joinSegs rs)
    (hsplit : splitSlash root = "" :: rs)
    (hne : rs ≠ [])
    (hrs : ∀ s ∈ rs, ¬s = "" ∧ ¬s = "." ∧ ¬s = "..")
    (hrel : ∀ s ∈ splitSlash rel, ¬s = "..") :
    isUnder root (joinPath root rel) := by
  rw [joinPath, hsplit]
  obtain ⟨t, ht⟩ := foldl_normStep_noDotDot hrel rs
  have h0 : normStep [] "" = [] := rfl
  have hfold : List.foldl normStep [] (("" :: rs) ++ splitSlash rel) =
      rs ++ t := by
    rw [List.cons_append, List.foldl_cons, h0, List.foldl_append,
      foldl_normStep_normal hrs []]
    simpa using ht
  rw [hfold]
  cases t with
  | nil =>
    left
    rw [List.append_nil, hroot]
  | cons x ts =>
    right
    rw [joinSegs_append rs hne (x :: ts) (by simp), hroot]
    simp only [strData_append, List.append_assoc]
    exact listPref_assoc_helper _ _ _ _

/-- Witness for the amended C9: `a/b` under root `/data` resolves under the
root. -/
theorem claimC9_witness :
    (splitSlash ("/data") = ["", "data"]) ∧
    isUnder ("/data") (joinPath ("/data") ("a/b")) :=
  ⟨rfl, claimC9_amended ("/data") ("a/b") ["data"] rfl rfl (by simp)
    (by decide) (by decide)⟩

theorem readFileE_of_lookup {fs : Entry} {p : List String} {c : String}
    (h : lookupE fs p = some (.file c)) : readFileE fs p = .ok c := by
  induction p generalizing fs with
  | nil =>
    simp only [lookupE, Option.some.injEq] at h
    subst h; rfl
  | cons n q ih =>
    cases fs with
    | file s => simp [lookupE] at h
    | other => simp [lookupE] at h
    | dir cs =>
      rw [lookupE] at h
      cases hg : getChild cs n with
      | none => rw [hg] at h; simp at h
      | some ch =>
        rw [hg] at h
        rw [readFileE, hg]
        exact ih h

/-- Claim C3 (counterexample): `read` attempts `JSON.parse` on every file;
raw bytes `"123"` previously written to the non-structured path `a.txt` come
back as the decoded number `123`, not as the bytes written. -/
theorem claimC3_counterexample :
    (read (write (St.mk (.dir []) []) ["a.txt"] (.str "123")).2 ["a.txt"]).1 =
      .fulfilled (.num 123) ∧
    Json.num 123 ≠ .str "123" := by
  exact ⟨rfl, by simp⟩

/-- Claim C3 as amended: `read` attempts structured decoding regardless of
the extension; for a non-structured path, the bytes written come back
exactly when they do not decode as structured data (otherwise the decoded
value is returned, see the counterexample). -/
theorem claimC3_amended (st st1 : St) (p : List String) (s : String)
    (hext : endsJson p = false)
    (hw : write st p (.str s) = (.fulfilled (), st1))
    (hparse : parseJson s = none) :
    (read st1 p).1 = .fulfilled (.str s) := by
  obtain ⟨hwf, -⟩ := write_ok_shape hw
  have hser : serContent p (.str s) = s := by
    simp [serContent, hext, jsToString]
  rw [hser] at hwf
  have hrd : readFileE st1.fs p = .ok s :=
    readFileE_of_lookup (writeFileE_ok_lookup hwf)
  simp [read, hrd, hparse]

/-- Witness for the amended C3: `"hello"` does not decode, so it reads back
exactly. -/
theorem claimC3_witness :
    (read (write (St.mk (.dir []) []) ["b.txt"] (.str "hello")).2 ["b.txt"]).1 =
      .fulfilled (.str "hello") :=
  claimC3_amended (St.mk (.dir []) [])
    (St.mk (.dir [("b.txt", .file "hello")])
      [Event.writeEv ["b.txt"] (.str "hello")])
    ["b.txt"] "hello" rfl rfl rfl

/-! ## Round trip of the serializer and the parser -/

theorem digit_char_facts (d : Nat) (hd : d < 10) :
    isDig (Char.ofNat (48 + d)) = true ∧
    (Char.ofNat (48 + d)).toNat = 48 + d ∧
    isWsChar (Char.ofNat (48 + d)) = false ∧
    ¬(Char.ofNat (48 + d) = 'n') ∧
    ¬(Char.ofNat (48 + d) = 't') ∧
    ¬(Char.ofNat (48 + d) = 'f') ∧
    ¬(Char.ofNat (48 + d) = '"') ∧
    ¬(Char.ofNat (48 + d) = '-') ∧
    ¬(Char.ofNat (48 + d) = ']') ∧
    ¬(Char.ofNat (48 + d) = '\x7d') := by
  interval_cases d <;> exact (by decide)

theorem natChars_shape (n : Nat) :
    ∃ d t, natChars n = Char.ofNat (48 + d) :: t ∧ d < 10 := by
  induction n using Nat.strong_induction_on with
  | _ n ih =>
    rw [natChars_step]
    by_cases hn : n < 10
    · rw [if_pos hn]
      exact ⟨n, [], rfl, hn⟩
    · rw [if_neg hn]
      obtain ⟨d, t, hshape, hd⟩ :=
        ih (n / 10) (Nat.div_lt_self (by omega) (by omega))
      refine ⟨d, t ++ [Char.ofNat (48 + n % 10)], ?_, hd⟩
      rw [hshape]
      rfl

theorem digLoop_natChars :
    ∀ n acc rest, digLoop acc (natChars n ++ rest) =
      digLoop (acc * 10 ^ (natChars n).length + n) rest := by
  intro n
  induction n using Nat.strong_induction_on with
  | _ n ih =>
    intro acc rest
    by_cases hn : n < 10
    · rw [natChars_step, if_pos hn]
      obtain ⟨hdig, htn, -⟩ := digit_char_facts n hn
      simp only [List.singleton_append, List.length_singleton]
      rw [digLoop, if_pos hdig, htn]
      have h1 : 10 * acc + (48 + n - 48) = acc * 10 ^ 1 + n := by
        simp [pow_one]
        omega
      rw [h1]
    · rw [natChars_step, if_neg hn]
      have hsm : n / 10 < n := Nat.div_lt_self (by omega) (by omega)
      rw [List.append_assoc, ih (n / 10) hsm acc
        ([Char.ofNat (48 + n % 10)] ++ rest)]
      obtain ⟨hdig, htn, -⟩ := digit_char_facts (n % 10) (by omega)
      simp only [List.singleton_append, List.length_append,
        List.length_singleton]
      rw [digLoop, if_pos hdig, htn]
      generalize hL : (natChars (n / 10)).length = L
      have hqr : 10 * (n / 10) + n % 10 = n := by omega
      have h48 : 48 + n % 10 - 48 = n % 10 := by omega
      rw [h48]
      have h1 : 10 * (acc * 10 ^ L + n / 10) + n % 10 =
          acc * 10 ^ (L + 1) + n := by
        rw [pow_succ]
        generalize hq : n / 10 = q at hqr ⊢
        generalize hr : n % 10 = r at hqr ⊢
        rw [← hqr]
        ring
      rw [h1]

theorem digLoop_stop {rest : List Char} (h : headNonDig rest = true) (a : Nat) :
    digLoop a rest = (a, rest) := by
  cases rest with
  | nil => rfl
  | cons c r =>
    simp only [headNonDig, Bool.not_eq_true'] at h
    rw [digLoop, if_neg (by simp [h])]

theorem digLoop_natChars_run {m : Nat} {rest : List Char} {d : Nat}
    {t : List Char} (hshape : natChars m = Char.ofNat (48 + d) :: t)
    (hd : d < 10) (hrest : headNonDig rest = true) :
    digLoop ((Char.ofNat (48 + d)).toNat - 48) (t ++ rest) = (m, rest) := by
  obtain ⟨hdig, htn, -⟩ := digit_char_facts d hd
  have h0 := digLoop_natChars m 0 rest
  rw [hshape] at h0
  simp only [List.cons_append] at h0
  rw [digLoop, if_pos hdig] at h0
  rw [digLoop_stop hrest] at h0
  simp only [Nat.zero_mul, Nat.mul_zero, Nat.zero_add] at h0
  rw [h0]

theorem parse_intChars (g : Nat) (n : Int) (rest : List Char)
    (hrest : headNonDig rest = true) :
    parseV (g + 1) (intChars n ++ rest) = some (.num n, rest) := by
  rw [intChars]
  by_cases hneg : n < 0
  · rw [if_pos hneg]
    obtain ⟨d, t, hshape, hd⟩ := natChars_shape n.natAbs
    simp only [List.cons_append]
    rw [show g + 1 = Nat.succ g from rfl, parseV.eq_3]
    rw [if_neg (by decide), if_neg (by decide), if_neg (by decide),
      if_neg (by decide), if_pos rfl]
    rw [hshape]
    simp only [List.cons_append]
    obtain ⟨hdig, -⟩ := digit_char_facts d hd
    rw [parseNeg, if_pos hdig]
    simp only [digLoop_natChars_run hshape hd hrest]
    have hcast : -((n.natAbs : Int)) = n := by omega
    rw [hcast]
  · rw [if_neg hneg]
    obtain ⟨d, t, hshape, hd⟩ := natChars_shape n.toNat
    obtain ⟨hdig, htn, hws, hn2, ht2, hf2, hq2, hm2, -⟩ :=
      digit_char_facts d hd
    rw [hshape]
    simp only [List.cons_append]
    rw [show g + 1 = Nat.succ g from rfl, parseV.eq_3]
    rw [if_neg hn2, if_neg ht2, if_neg hf2, if_neg hq2, if_neg hm2,
      if_pos hdig]
    rw [digLoop_natChars_run hshape hd hrest]
    have hcast : ((n.toNat : Int)) = n := by omega
    simp only [hcast]

theorem hexVal_hexDig (a : Nat) (ha : a < 16) : hexVal (hexDig a) = some a := by
  interval_cases a <;> decide

theorem strMk_data (s : String) : String.mk s.data = s := rfl

theorem parseStr_escList :
    ∀ cs rest, parseStrBody (escList cs ++ '"' :: rest) = some (cs, rest) := by
  intro cs
  induction cs with
  | nil =>
    intro rest
    simp only [escList, List.nil_append]
    rw [parseStrBody.eq_def]
    simp
  | cons c cs ih =>
    intro rest
    simp only [escList, List.append_assoc]
    by_cases h1 : c = '"'
    · subst h1
      rw [show escChar '"' = ['\\', '"'] from rfl]
      simp only [List.cons_append, List.nil_append]
      rw [parseStrBody.eq_def]
      simp [escDecode, ih]
    · by_cases h2 : c = '\\'
      · subst h2
        rw [show escChar '\\' = ['\\', '\\'] from rfl]
        simp only [List.cons_append, List.nil_append]
        rw [parseStrBody.eq_def]
        simp [escDecode, ih]
      · by_cases h3 : c = '\x08'
        · subst h3
          rw [show escChar '\x08' = ['\\', 'b'] from rfl]
          simp only [List.cons_append, List.nil_append]
          rw [parseStrBody.eq_def]
          simp [escDecode, ih]
        · by_cases h4 : c = '\t'
          · subst h4
            rw [show escChar '\t' = ['\\', 't'] from rfl]
            simp only [List.cons_append, List.nil_append]
            rw [parseStrBody.eq_def]
            simp [escDecode, ih]
          · by_cases h5 : c = '\n'
            · subst h5
              rw [show escChar '\n' = ['\\', 'n'] from rfl]
              simp only [List.cons_append, List.nil_append]
              rw [parseStrBody.eq_def]
              simp [escDecode, ih]
            · by_cases h6 : c = '\x0c'
              · subst h6
                rw [show escChar '\x0c' = ['\\', 'f'] from rfl]
                simp only [List.cons_append, List.nil_append]
                rw [parseStrBody.eq_def]
                simp [escDecode, ih]
              · by_cases h7 : c = '\r'
                · subst h7
                  rw [show escChar '\r' = ['\\', 'r'] from rfl]
                  simp only [List.cons_append, List.nil_append]
                  rw [parseStrBody.eq_def]
                  simp [escDecode, ih]
                · by_cases h8 : c.toNat < 32
                  · rw [escChar, if_neg h1, if_neg h2, if_neg h3, if_neg h4,
                      if_neg h5, if_neg h6, if_neg h7, if_pos h8]
                    simp only [List.cons_append, List.nil_append]
                    rw [parseStrBody.eq_def]
                    have hdiv : c.toNat / 16 < 16 := by omega
                    have hmod : c.toNat % 16 < 16 := by omega
                    simp only [show hexVal ('0') = some 0 from rfl,
                      hexVal_hexDig _ hdiv, hexVal_hexDig _ hmod]
                    have harith : c.toNat / 16 * 16 + c.toNat % 16 =
                        c.toNat := by omega
                    simp [ih]
                    rw [harith, Char.ofNat_toNat]
                  · rw [escChar, if_neg h1, if_neg h2, if_neg h3, if_neg h4,
                      if_neg h5, if_neg h6, if_neg h7, if_neg h8]
                    simp only [List.cons_append, List.nil_append]
                    rw [parseStrBody.eq_def]
                    simp [h1, h2, h8, ih]

theorem skipWs_replicate (k : Nat) (l : List Char) :
    skipWs (List.replicate k ' ' ++ l) = skipWs l := by
  induction k with
  | zero => rfl
  | succ k ih =>
    rw [List.replicate_succ, List.cons_append, skipWs, if_pos (by decide)]
    exact ih

theorem skipWs_pad (n : Nat) (l : List Char) :
    skipWs (pad n ++ l) = skipWs l := by
  rw [pad]
  exact skipWs_replicate _ _

theorem skipWs_nl (l : List Char) : skipWs ('\n' :: l) = skipWs l := by
  rw [skipWs, if_pos (by decide)]

theorem skipWs_sp (l : List Char) : skipWs (' ' :: l) = skipWs l := by
  rw [skipWs, if_pos (by decide)]

theorem skipWs_nonWs {c : Char} (h : isWsChar c = false) (l : List Char) :
    skipWs (c :: l) = c :: l := by
  rw [skipWs, if_neg (by simp [h])]

theorem pJson_head (d : Nat) (v : Json) :
    ∃ c t, pJson d v = c :: t ∧ isWsChar c = false ∧
      ¬(c = ']') ∧ ¬(c = '\x7d') := by
  cases v with
  | null => refine ⟨'n', _, rfl, ?_, ?_, ?_⟩ <;> decide
  | bool b =>
    cases b with
    | true => refine ⟨'t', _, rfl, ?_, ?_, ?_⟩ <;> decide
    | false => refine ⟨'f', _, rfl, ?_, ?_, ?_⟩ <;> decide
  | num n =>
    rw [pJson, intChars]
    by_cases hneg : n < 0
    · rw [if_pos hneg]
      refine ⟨'-', _, rfl, ?_, ?_, ?_⟩ <;> decide
    · rw [if_neg hneg]
      obtain ⟨dd, t, hsh, hdd⟩ := natChars_shape n.toNat
      obtain ⟨-, -, hws, -, -, -, -, -, hrb, hcb⟩ := digit_char_facts dd hdd
      exact ⟨Char.ofNat (48 + dd), t, hsh, hws, hrb, hcb⟩
  | str s => refine ⟨'"', _, rfl, ?_, ?_, ?_⟩ <;> decide
  | arr xs =>
    cases xs with
    | nil => refine ⟨'[', _, rfl, ?_, ?_, ?_⟩ <;> decide
    | cons x xs => refine ⟨'[', _, rfl, ?_, ?_, ?_⟩ <;> decide
  | obj fs =>
    cases fs with
    | nil => refine ⟨'\x7b', _, rfl, ?_, ?_, ?_⟩ <;> decide
    | cons kv fs => refine ⟨'\x7b', _, rfl, ?_, ?_, ?_⟩ <;> decide

theorem skipWs_pJson (d : Nat) (v : Json) (rest : List Char) :
    skipWs (pJson d v ++ rest) = pJson d v ++ rest := by
  obtain ⟨c, t, hsh, hws, -, -⟩ := pJson_head d v
  rw [hsh, List.cons_append, skipWs_nonWs hws, ← List.cons_append]

theorem pJson_length_pos (d : Nat) (v : Json) : 1 ≤ (pJson d v).length := by
  obtain ⟨c, t, hsh, -⟩ := pJson_head d v
  rw [hsh]
  simp

theorem pJson_head_ne_rb (d : Nat) (v : Json) (rest : List Char) :
    ¬((pJson d v ++ rest).head? = some ']') := by
  obtain ⟨c, t, hsh, -, hrb, -⟩ := pJson_head d v
  rw [hsh]
  simpa using hrb

theorem pJson_head_ne_cb (d : Nat) (v : Json) (rest : List Char) :
    ¬((pJson d v ++ rest).head? = some ('\x7d')) := by
  obtain ⟨c, t, hsh, -, -, hcb⟩ := pJson_head d v
  rw [hsh]
  simpa using hcb

theorem pArrTail_headNonDig (d : Nat) (xs : List Json) (rest : List Char) :
    headNonDig (pArrTail d xs ++ rest) = true := by
  cases xs with
  | nil => rfl
  | cons y ys => rfl

theorem pObjTail_headNonDig (d : Nat) (fs : List (String × Json))
    (rest : List Char) : headNonDig (pObjTail d fs ++ rest) = true := by
  cases fs with
  | nil => rfl
  | cons kv fs => rfl

theorem len_pJson_arr_cons (d : Nat) (x : Json) (xs : List Json) :
    (pJson d (.arr (x :: xs))).length =
      2 + 2 * (d + 1) + (pJson (d + 1) x).length + (pArrTail d xs).length := by
  rw [pJson]
  simp [pad]
  omega

theorem len_pJson_obj_cons (d : Nat) (kv : String × Json)
    (fs : List (String × Json)) :
    (pJson d (.obj (kv :: fs))).length =
      2 + 2 * (d + 1) + (escList kv.1.data).length + 4 +
        (pJson (d + 1) kv.2).length + (pObjTail d fs).length := by
  rw [pJson]
  simp [pad]
  omega

theorem len_pArrTail_cons (d : Nat) (y : Json) (ys : List Json) :
    (pArrTail d (y :: ys)).length =
      2 + 2 * (d + 1) + (pJson (d + 1) y).length + (pArrTail d ys).length := by
  rw [pArrTail]
  simp [pad]
  omega

theorem len_pObjTail_cons (d : Nat) (kv : String × Json)
    (fs : List (String × Json)) :
    (pObjTail d (kv :: fs)).length =
      2 + 2 * (d + 1) + (escList kv.1.data).length + 4 +
        (pJson (d + 1) kv.2).length + (pObjTail d fs).length := by
  rw [pObjTail]
  simp [pad]
  omega

theorem pArrTail_length_ge (d : Nat) (xs : List Json) :
    2 ≤ (pArrTail d xs).length := by
  cases xs with
  | nil =>
    rw [pArrTail]
    simp [pad]
  | cons y ys =>
    rw [pArrTail]
    simp [pad]

theorem parse_pJson_rt : ∀ f : Nat,
    (∀ d v rest, (pJson d v).length ≤ f → headNonDig rest = true →
      parseV f (pJson d v ++ rest) = some (v, rest)) ∧
    (∀ d x xs rest,
      (pJson (d + 1) x).length + (pArrTail d xs).length ≤ f →
      headNonDig rest = true →
      parseItems f (pJson (d + 1) x ++ (pArrTail d xs ++ rest)) =
        some (x :: xs, rest)) ∧
    (∀ d k v fs rest,
      (pJson (d + 1) v).length + (pObjTail d fs).length + 3 ≤ f →
      headNonDig rest = true →
      parseKVs f ('"' :: (escList k.data ++
        ('"' :: ':' :: ' ' :: (pJson (d + 1) v ++ (pObjTail d fs ++ rest))))) =
        some ((k, v) :: fs, rest)) := by
  intro f
  induction f with
  | zero =>
    refine ⟨?_, ?_, ?_⟩
    · intro d v rest hlen hrest
      have := pJson_length_pos d v
      omega
    · intro d x xs rest hlen hrest
      have := pJson_length_pos (d + 1) x
      omega
    · intro d k v fs rest hlen hrest
      omega
  | succ f ih =>
    obtain ⟨ih1, ih2, ih3⟩ := ih
    refine ⟨?_, ?_, ?_⟩
    · intro d v rest hlen hrest
      cases v with
      | null =>
        rw [show pJson d .null = ['n', 'u', 'l', 'l'] from rfl]
        simp only [List.cons_append, List.nil_append]
        rw [show f + 1 = Nat.succ f from rfl, parseV.eq_3]
        rw [if_pos rfl, parseNull]
      | bool b =>
        cases b with
        | true =>
          rw [show pJson d (.bool true) = ['t', 'r', 'u', 'e'] from rfl]
          simp only [List.cons_append, List.nil_append]
          rw [show f + 1 = Nat.succ f from rfl, parseV.eq_3]
          rw [if_neg (by decide), if_pos rfl, parseTrue]
        | false =>
          rw [show pJson d (.bool false) = ['f', 'a', 'l', 's', 'e'] from rfl]
          simp only [List.cons_append, List.nil_append]
          rw [show f + 1 = Nat.succ f from rfl, parseV.eq_3]
          rw [if_neg (by decide), if_neg (by decide), if_pos rfl, parseFalse]
      | num n =>
        rw [show pJson d (.num n) = intChars n from rfl]
        exact parse_intChars f n rest hrest
      | str s =>
        rw [show pJson d (.str s) = '"' :: (escList s.data ++ ['"'])
          from rfl]
        simp only [List.cons_append, List.append_assoc,
          List.singleton_append]
        rw [show f + 1 = Nat.succ f from rfl, parseV.eq_3]
        rw [if_neg (by decide), if_neg (by decide), if_neg (by decide),
          if_pos rfl]
        rw [parseStr_escList]
        simp [strMk_data]
      | arr xs =>
        cases xs with
        | nil =>
          rw [show pJson d (.arr []) = ['[', ']'] from rfl]
          simp only [List.cons_append, List.nil_append]
          rw [show f + 1 = Nat.succ f from rfl, parseV.eq_3]
          rw [if_neg (by decide), if_neg (by decide), if_neg (by decide),
            if_neg (by decide), if_neg (by decide), if_neg (by decide),
            if_pos rfl]
          rw [parseArrB, skipWs_nonWs (by decide)]
          simp
        | cons x xs =>
          rw [show pJson d (.arr (x :: xs)) = '[' :: '\n' ::
            (pad (d + 1) ++ pJson (d + 1) x ++ pArrTail d xs) from rfl]
          simp only [List.cons_append, List.append_assoc]
          rw [show f + 1 = Nat.succ f from rfl, parseV.eq_3]
          rw [if_neg (by decide), if_neg (by decide), if_neg (by decide),
            if_neg (by decide), if_neg (by decide), if_neg (by decide),
            if_pos rfl]
          rw [parseArrB]
          simp only [skipWs_nl, skipWs_pad, skipWs_pJson]
          rw [if_neg (pJson_head_ne_rb _ _ _)]
          have hL := len_pJson_arr_cons d x xs
          have hfl : (pJson (d + 1) x).length + (pArrTail d xs).length ≤ f := by
            omega
          rw [ih2 d x xs rest hfl hrest]
          rfl
      | obj fs =>
        cases fs with
        | nil =>
          rw [show pJson d (.obj []) = ['\x7b', '\x7d'] from rfl]
          simp only [List.cons_append, List.nil_append]
          rw [show f + 1 = Nat.succ f from rfl, parseV.eq_3]
          rw [if_neg (by decide), if_neg (by decide), if_neg (by decide),
            if_neg (by decide), if_neg (by decide), if_neg (by decide),
            if_neg (by decide), if_pos rfl]
          rw [parseObjB, skipWs_nonWs (by decide)]
          simp
        | cons kv fs =>
          rw [show pJson d (.obj (kv :: fs)) = '\x7b' :: '\n' ::
            (pad (d + 1) ++ '"' :: (escList kv.1.data ++
              '"' :: ':' :: ' ' :: pJson (d + 1) kv.2 ++ pObjTail d fs))
            from rfl]
          simp only [List.cons_append, List.append_assoc]
          rw [show f + 1 = Nat.succ f from rfl, parseV.eq_3]
          rw [if_neg (by decide), if_neg (by decide), if_neg (by decide),
            if_neg (by decide), if_neg (by decide), if_neg (by decide),
            if_neg (by decide), if_pos rfl]
          rw [parseObjB]
          simp only [skipWs_nl, skipWs_pad, skipWs_nonWs (by decide :
            isWsChar '"' = false)]
          rw [if_neg (by simp)]
          have hL := len_pJson_obj_cons d kv fs
          have hfl : (pJson (d + 1) kv.2).length +
              (pObjTail d fs).length + 3 ≤ f := by
            omega
          rw [ih3 d kv.1 kv.2 fs rest hfl hrest]
          simp
    · intro d x xs rest hlen hrest
      rw [show f + 1 = Nat.succ f from rfl, parseItems.eq_2]
      have hT := pArrTail_length_ge d xs
      have hx : (pJson (d + 1) x).length ≤ f := by omega
      simp only [ih1 (d + 1) x (pArrTail d xs ++ rest) hx
        (pArrTail_headNonDig d xs rest)]
      cases xs with
      | nil =>
        rw [show pArrTail d ([] : List Json) = '\n' :: (pad d ++ [']'])
          from rfl]
        simp only [List.cons_append, List.append_assoc,
          List.singleton_append]
        simp only [skipWs_nl, skipWs_pad, skipWs_nonWs (by decide :
          isWsChar ']' = false), List.nil_append]
      | cons y ys =>
        rw [show pArrTail d (y :: ys) = ',' :: '\n' ::
          (pad (d + 1) ++ pJson (d + 1) y ++ pArrTail d ys) from rfl]
        simp only [List.cons_append, List.append_assoc]
        simp only [skipWs_nonWs (by decide : isWsChar ',' = false)]
        simp only [skipWs_nl, skipWs_pad, skipWs_pJson]
        have hLy := len_pArrTail_cons d y ys
        have hy : (pJson (d + 1) y).length + (pArrTail d ys).length ≤ f := by
          have := pJson_length_pos (d + 1) x
          omega
        rw [ih2 d y ys rest hy hrest]
        rfl
    · intro d k v fs rest hlen hrest
      rw [show f + 1 = Nat.succ f from rfl, parseKVs.eq_2]
      rw [parseStr_escList]
      simp only [skipWs_nonWs (by decide : isWsChar ':' = false)]
      simp only [skipWs_sp, skipWs_pJson]
      have hv : (pJson (d + 1) v).length ≤ f := by omega
      simp only [ih1 (d + 1) v (pObjTail d fs ++ rest) hv
        (pObjTail_headNonDig d fs rest)]
      cases fs with
      | nil =>
        rw [show pObjTail d ([] : List (String × Json)) =
          '\n' :: (pad d ++ ['\x7d']) from rfl]
        simp only [List.cons_append, List.append_assoc,
          List.singleton_append]
        simp only [skipWs_nl, skipWs_pad, skipWs_nonWs (by decide :
          isWsChar '\x7d' = false)]
        simp [strMk_data]
      | cons kv2 fs2 =>
        rw [show pObjTail d (kv2 :: fs2) = ',' :: '\n' ::
          (pad (d + 1) ++ '"' :: (escList kv2.1.data ++
            '"' :: ':' :: ' ' :: pJson (d + 1) kv2.2 ++ pObjTail d fs2))
          from rfl]
        simp only [List.cons_append, List.append_assoc]
        simp only [skipWs_nonWs (by decide : isWsChar ',' = false)]
        simp only [skipWs_nl, skipWs_pad, skipWs_nonWs (by decide :
          isWsChar '"' = false)]
        have hL2 := len_pObjTail_cons d kv2 fs2
        have h2 : (pJson (d + 1) kv2.2).length +
            (pObjTail d fs2).length + 3 ≤ f := by
          have := pJson_length_pos (d + 1) v
          omega
        rw [ih3 d kv2.1 kv2.2 fs2 rest h2 hrest]
        simp [strMk_data]

theorem parseJson_stringify (v : Json) : parseJson (stringify v) = some v := by
  rw [parseJson]
  have hdata : (stringify v).data = pJson 0 v := rfl
  have hlen : (stringify v).length = (pJson 0 v).length := rfl
  rw [hdata, hlen]
  have hsw : skipWs (pJson 0 v) = pJson 0 v := by
    have h := skipWs_pJson 0 v []
    simpa using h
  rw [hsw]
  have hmain := (parse_pJson_rt ((pJson 0 v).length + 1)).1 0 v []
    (by omega) rfl
  rw [List.append_nil] at hmain
  rw [hmain]
  rfl

/-- C4: writing a structured value to a `.json` path and then reading that
path back yields exactly the value written: `write` serializes with
`JSON.stringify(v, undefined, 2)` and `read` recovers `v` with
`JSON.parse`, so the `write`-then-`read` round trip is the identity. -/
theorem claimC4 (st st1 : St) (p : List String) (v : Json)
    (hext : endsJson p = true)
    (hw : write st p v = (.fulfilled (), st1)) :
    (read st1 p).1 = .fulfilled v := by
  obtain ⟨hok, -⟩ := write_ok_shape hw
  have hlk := writeFileE_ok_lookup hok
  have hrf := readFileE_of_lookup hlk
  have hser : serContent p v = stringify v := by
    rw [serContent, if_pos hext]
  rw [read]
  simp [hrf, hser, parseJson_stringify]

theorem claimC4_witness :
    (read (write (St.mk (.dir []) []) ["doc.json"]
        (.obj [("x", .num 1)])).2 ["doc.json"]).1 =
      .fulfilled (.obj [("x", .num 1)]) :=
  claimC4 (St.mk (.dir []) [])
    (write (St.mk (.dir []) []) ["doc.json"] (.obj [("x", .num 1)])).2
    ["doc.json"] (.obj [("x", .num 1)]) rfl rfl

end Json2Db
